import Mathlib

/-!
Shallow embedding of the Random Boolean Network simulator
(src/rbn/network.py and src/rbn/main.py).

Modelling conventions:
* Python's implicit global randomness is made explicit: every call that
  draws from `random` receives an oracle (a function from draw positions to
  drawn values) and results are quantified over all oracles.
* `random.choices([0, 1], weights=[1 - p, p])[0]` draws `u = random()`
  (a value in `[0, 1)`) and returns `0` when `u < 1 - p`, else `1`
  (cumulative weights `[1 - p, 1]`, bisection).  Probabilities and draws
  are modelled as rationals.
* `random.randint(0, n - 1)` is modelled by reducing an arbitrary natural
  oracle value modulo `n`; for `n ≤ 0` Python raises `ValueError`.
* Python dicts keyed by `0..N-1` in insertion order are modelled as
  positional lists; iteration over `.items()` pairs each element with its
  index, realised by recursions carrying the running key.
* The unbounded `while` loop of `edge_algorithm_uniform` is modelled with
  explicit fuel; an out-of-fuel answer for every fuel value means the loop
  never exits.
* Fallible operations (list indexing, dict lookup) return `Option`.
-/

/-- Model of `random.choices([0, 1], weights=[1 - p, p])[0]` given the
underlying uniform draw `u = random()` (cumulative weights `[1 - p, 1]`:
result `0` when `u < 1 - p`, else `1`). -/
def random_choices_01 (p u : Rat) : Nat :=
  if u < 1 - p then 0 else 1

/-- A truth table for one node: Python `dict[str, int]` with keys inserted
in enumeration order (keys are distinct, so association-list lookup agrees
with dict lookup). -/
abbrev RuleTable := List (String × Nat)

/-- The `Network` object of src/rbn/network.py: node count and requested
edge count as passed to `__init__`, the cleaned adjacency (dependency list
per node), one rule table per node, and the current state vector. -/
structure Network where
  num_nodes : Int
  num_edges : Int
  node_dependency_lists : List (List Nat)
  node_transition_rules : List RuleTable
  node_states : List Nat
deriving DecidableEq

namespace Network

/-- `Network._create_truth_key`: `''.join(str(i) for i in truth_inputs)`. -/
def _create_truth_key (truth_inputs : List Nat) : String :=
  String.join (truth_inputs.map toString)

/-- `Network._generate_base_truth_inputs`: `itertools.product([0, 1], repeat=num_inputs)`
(pool order `0` then `1`, leftmost position varying slowest). -/
def _generate_base_truth_inputs : Nat → List (List Nat)
  | 0 => [[]]
  | n + 1 =>
      ((_generate_base_truth_inputs n).map (fun rest => 0 :: rest)) ++
        ((_generate_base_truth_inputs n).map (fun rest => 1 :: rest))

/-- `Network._assign_truth_mapping`: dict comprehension assigning each truth
key an output drawn by `random.choices`; the draw for key number `i` comes
from oracle position `u i`. -/
def _assign_truth_mapping (truth_keys : List String)
    (node_rule_activation_probability : Rat) (u : Nat → Rat) : RuleTable :=
  truth_keys.enum.map
    (fun p => (p.2, random_choices_01 node_rule_activation_probability (u p.1)))

/-- `Network._generate_rules`: one rule table per node, appended in
dependency-list order; node `i` draws from oracle row `u i`. -/
def _generate_rules (node_dependency_lists : List (List Nat))
    (node_rule_activation_probability : Rat) (u : Nat → Nat → Rat) : List RuleTable :=
  node_dependency_lists.enum.map
    (fun p =>
      _assign_truth_mapping
        ((_generate_base_truth_inputs p.2.length).map _create_truth_key)
        node_rule_activation_probability (u p.1))

/-- Body of `Network._cleanup_adjacency`: iterate `adjacency_list.items()`
with the running key, replacing an empty dependency list by `[node]`. -/
def cleanupAux : Nat → List (List Nat) → List (List Nat)
  | _, [] => []
  | node, adjacent_nodes :: rest =>
      (if adjacent_nodes = [] then [node] else adjacent_nodes) :: cleanupAux (node + 1) rest

/-- `Network._cleanup_adjacency`: nodes adjacent to nothing become adjacent
to themselves (dict keys are `0..N-1` in insertion order). -/
def _cleanup_adjacency (adjacency_list : List (List Nat)) : List (List Nat) :=
  cleanupAux 0 adjacency_list

/-- `Network.initialize_state`: one Bernoulli draw per node; replaces the
whole state vector. -/
def initialize_state (net : Network) (probability_of_on : Rat) (u : Nat → Rat) : Network :=
  { net with
    node_states :=
      (List.range net.num_nodes.toNat).map
        (fun i => random_choices_01 probability_of_on (u i)) }

/-- `Network._get_dependency_node_states`:
`[self.node_states[n] for n in dependency_nodes]`; an out-of-range index
(Python `IndexError`) yields `none`. -/
def _get_dependency_node_states (node_states : List Nat) : List Nat → Option (List Nat)
  | [] => some []
  | n :: rest => do
      let v ← node_states.get? n
      let tail ← _get_dependency_node_states node_states rest
      pure (v :: tail)

/-- Body of `Network.transition_state`: iterate `node_dependency_lists.items()`
with the running key `node_key`, look up the node's rule table and the truth
key of its dependency states, appending each staged bit. A missing list index
or truth key (Python `IndexError`/`KeyError`) yields `none`. -/
def transitionAux (node_transition_rules : List RuleTable) (node_states : List Nat) :
    Nat → List (List Nat) → Option (List Nat)
  | _, [] => some []
  | node_key, adjacent_nodes :: rest => do
      let node_rule_map ← node_transition_rules.get? node_key
      let dep_states ← _get_dependency_node_states node_states adjacent_nodes
      let next_bit ← List.lookup (_create_truth_key dep_states) node_rule_map
      let tail ← transitionAux node_transition_rules node_states (node_key + 1) rest
      pure (next_bit :: tail)

/-- `Network.transition_state`: stage every node's next bit from the pre-step
`node_states`, then publish the staged vector wholesale. -/
def transition_state (net : Network) : Option Network :=
  (transitionAux net.node_transition_rules net.node_states 0 net.node_dependency_lists).map
    (fun new_node_states => { net with node_states := new_node_states })

/-- Body of `Network.introduce_disturbance`: per node, draw `should_invert`
and flip the bit (`0 if value == 1 else 1`) when the draw is `1`; node `i`
draws from oracle position `u i`. -/
def disturbAux (disturbance_probability : Rat) (u : Nat → Rat) :
    Nat → List Nat → List Nat
  | _, [] => []
  | i, node_state :: rest =>
      (if random_choices_01 disturbance_probability (u i) = 1 then
          (if node_state = 1 then 0 else 1)
        else node_state) :: disturbAux disturbance_probability u (i + 1) rest

/-- `Network.introduce_disturbance`: replaces the whole state vector. -/
def introduce_disturbance (net : Network) (disturbance_probability : Rat)
    (u : Nat → Rat) : Network :=
  { net with node_states := disturbAux disturbance_probability u 0 net.node_states }

end Network

/-- Result of running the edge-generation loop: `ok` when the `while` loop
exits normally, `valueError` when `random.randint(0, num_nodes - 1)` is
called with an empty range (`num_nodes ≤ 0`), `outOfFuel` when the supplied
fuel ran out with the loop condition still true — `outOfFuel` for every
fuel value means the loop never terminates. -/
inductive EdgeResult where
  | ok : List (List Nat) → EdgeResult
  | valueError : EdgeResult
  | outOfFuel : EdgeResult
deriving DecidableEq

/-- The `while len(edges) < num_edges` loop of `edge_algorithm_uniform`.
`edges` is the set of already-drawn directed `(from, to)` pairs (kept
duplicate-free by the membership guard), `adjacency_list` the positional
dict, `pos` the next oracle position (two `randint` draws per iteration);
an unseen edge is recorded and its source appended to the target's list. -/
def edgeLoop (num_nodes num_edges : Int) (u : Nat → Nat) :
    Nat → Nat → List (Nat × Nat) → List (List Nat) → EdgeResult
  | 0, _, edges, adjacency_list =>
      if (edges.length : Int) < num_edges then .outOfFuel else .ok adjacency_list
  | fuel + 1, pos, edges, adjacency_list =>
      if (edges.length : Int) < num_edges then
        if num_nodes ≤ 0 then .valueError
        else
          let node0 := u pos % num_nodes.toNat
          let node1 := u (pos + 1) % num_nodes.toNat
          let edge := (node0, node1)
          if edge ∈ edges then
            edgeLoop num_nodes num_edges u fuel (pos + 2) edges adjacency_list
          else
            edgeLoop num_nodes num_edges u fuel (pos + 2) (edge :: edges)
              (adjacency_list.set node1 ((adjacency_list.getD node1 []) ++ [node0]))
      else .ok adjacency_list

/-- `edge_algorithm_uniform`: start from `{i: [] for i in range(num_nodes)}`
and an empty edge set, then run the drawing loop. -/
def edge_algorithm_uniform (num_nodes num_edges : Int) (u : Nat → Nat)
    (fuel : Nat) : EdgeResult :=
  edgeLoop num_nodes num_edges u fuel 0 [] (List.replicate num_nodes.toNat [])

/-- `Network.__init__`: generate edges, clean up the adjacency, synthesise
the rules, zero the states, then `initialize_state`. No parameter is
validated anywhere. `none` exactly when the edge loop did not return. -/
def Network.construct (num_nodes num_edges : Int) (fuel : Nat) (uEdge : Nat → Nat)
    (node_rule_activation_probability initial_state_probability : Rat)
    (uRule : Nat → Nat → Rat) (uInit : Nat → Rat) : Option Network :=
  match edge_algorithm_uniform num_nodes num_edges uEdge fuel with
  | .ok raw_adjacency =>
      let node_dependency_lists := Network._cleanup_adjacency raw_adjacency
      let node_transition_rules :=
        Network._generate_rules node_dependency_lists node_rule_activation_probability uRule
      let net : Network :=
        { num_nodes := num_nodes, num_edges := num_edges,
          node_dependency_lists := node_dependency_lists,
          node_transition_rules := node_transition_rules,
          node_states := List.replicate num_nodes.toNat 0 }
      some (net.initialize_state initial_state_probability uInit)
  | _ => none

/-- The loop of `get_disturbance_time_slices` (src/rbn/main.py):
`for i in range(num_disturbances - 1): current += period; times.append(current)`. -/
def disturbanceLoop (disturbance_period : Nat) :
    Nat → Nat → List Nat → List Nat
  | 0, _, disturbance_times => disturbance_times
  | n + 1, current, disturbance_times =>
      disturbanceLoop disturbance_period n (current + disturbance_period)
        (disturbance_times ++ [current + disturbance_period])

/-- `get_disturbance_time_slices` (src/rbn/main.py): `period = floor(T/(D+1))`,
first event at `period`, then `D - 1` further events one period apart
(`range(D - 1)` is empty for `D = 0`, matching Python's `range(-1)`). -/
def get_disturbance_time_slices (num_disturbances total_time_slices : Nat) : List Nat :=
  let disturbance_period := total_time_slices / (num_disturbances + 1)
  disturbanceLoop disturbance_period (num_disturbances - 1) disturbance_period
    [disturbance_period]

/-- The schedule selection in `generate_image` (src/rbn/main.py):
`disturbance_times` stays `None` unless `num_disturbances != 0`. -/
def generate_image_disturbance_times (num_disturbances num_transitions : Nat) :
    Option (List Nat) :=
  if num_disturbances ≠ 0 then
    some (get_disturbance_time_slices num_disturbances num_transitions)
  else none

/-- The identity (copy-input) rule table for one dependency:
`"0" ↦ 0`, `"1" ↦ 1`. -/
def copyRule : RuleTable := [("0", 0), ("1", 1)]

/-- A 2-node network where node 0 depends only on node 1 and node 1 only on
node 0, each with the copy-input rule, in states `[a, b]`. -/
def swapNet (a b : Nat) : Network :=
  { num_nodes := 2, num_edges := 2,
    node_dependency_lists := [[1], [0]],
    node_transition_rules := [copyRule, copyRule],
    node_states := [a, b] }

/-- Closed form of the schedule loop: it appends one event per remaining
iteration, each one period after the previous. -/
theorem disturbanceLoop_eq (period n : Nat) :
    ∀ (current : Nat) (times : List Nat),
      disturbanceLoop period n current times =
        times ++ (List.range n).map (fun i => current + (i + 1) * period) := by
  induction n with
  | zero => intro current times; simp [disturbanceLoop]
  | succ n ih =>
      intro current times
      rw [disturbanceLoop, ih, List.range_succ_eq_map]
      have hfun : (fun i : Nat => current + period + (i + 1) * period) =
          (fun i : Nat => current + (i + 1 + 1) * period) := by
        funext i; ring
      simp only [List.map_cons, List.map_map, List.append_assoc, List.cons_append,
        List.nil_append, Function.comp_def, Nat.succ_eq_add_one, hfun]
      norm_num

/-- The schedule is `[period, 2*period, ..., D*period]` for `D ≥ 1`. -/
theorem get_disturbance_time_slices_eq (D T : Nat) (h : 1 ≤ D) :
    get_disturbance_time_slices D T =
      (List.range D).map (fun i => (i + 1) * (T / (D + 1))) := by
  obtain ⟨E, rfl⟩ : ∃ E, D = E + 1 := ⟨D - 1, by omega⟩
  rw [get_disturbance_time_slices]
  simp only [Nat.add_sub_cancel]
  rw [disturbanceLoop_eq, List.range_succ_eq_map]
  have hfun : (fun i : Nat => T / (E + 1 + 1) + (i + 1) * (T / (E + 1 + 1))) =
      (fun i : Nat => (i + 1 + 1) * (T / (E + 1 + 1))) := by
    funext i; ring
  simp only [List.map_cons, List.map_map, Function.comp_def, Nat.succ_eq_add_one, hfun]
  simp

/-- Claim C9: for D >= 1 and T >= 1 the schedule helper returns exactly the D
event times [period, 2*period, ..., D*period] (period = floor(T/(D+1))) in
increasing order. -/
theorem C9_disturbance_schedule (D T : Nat) (hD : 1 ≤ D) (hT : 1 ≤ T) :
    get_disturbance_time_slices D T =
      (List.range D).map (fun i => (i + 1) * (T / (D + 1))) ∧
    (get_disturbance_time_slices D T).length = D ∧
    List.Sorted (· ≤ ·) (get_disturbance_time_slices D T) := by
  have heq := get_disturbance_time_slices_eq D T hD
  refine ⟨heq, by rw [heq]; simp, ?_⟩
  rw [heq]
  rw [List.Sorted, List.pairwise_map]
  have := List.pairwise_lt_range D
  exact this.imp (fun h => by exact Nat.mul_le_mul_right _ (by omega))

/-- Witness for C9 at D = 4, T = 2000: period 400 and events
[400, 800, 1200, 1600]. -/
theorem C9_witness :
    1 ≤ 4 ∧ 1 ≤ 2000 ∧ 2000 / (4 + 1) = 400 ∧
      get_disturbance_time_slices 4 2000 = [400, 800, 1200, 1600] := by
  refine ⟨by decide, by decide, by decide, ?_⟩
  rw [(C9_disturbance_schedule 4 2000 (by decide) (by decide)).1]
  decide

/-- Claim C10: called directly with D = 0 the helper returns the one-element
schedule [floor(T/1)] = [T] (not an empty schedule); the run driver
realises "no disturbances" only by skipping the helper when D = 0. -/
theorem C10_zero_disturbances (T : Nat) :
    get_disturbance_time_slices 0 T = [T / 1] ∧
    get_disturbance_time_slices 0 T ≠ [] ∧
    generate_image_disturbance_times 0 T = none := by
  refine ⟨?_, ?_, rfl⟩ <;> simp [get_disturbance_time_slices, disturbanceLoop]

/-- With probability 0, `random.choices` can only answer 0 (the draw is
below the whole mass 1 - 0 = 1). -/
theorem random_choices_01_zero (x : Rat) (hx : x < 1) : random_choices_01 0 x = 0 := by
  unfold random_choices_01
  rw [if_pos]
  simpa using hx

/-- With probability 1, `random.choices` can only answer 1 (the mass below
the draw is 1 - 1 = 0 and draws are nonnegative). -/
theorem random_choices_01_one (x : Rat) (hx : 0 ≤ x) : random_choices_01 1 x = 1 := by
  unfold random_choices_01
  rw [if_neg]
  simp only [sub_self, not_lt]
  exact hx

/-- Disturbance with probability 0 leaves every state in place. -/
theorem disturbAux_zero (u : Nat → Rat) (hu : ∀ i, u i < 1) :
    ∀ (i : Nat) (l : List Nat), Network.disturbAux 0 u i l = l := by
  intro i l
  induction l generalizing i with
  | nil => rfl
  | cons a t ih =>
      rw [Network.disturbAux, random_choices_01_zero (u i) (hu i)]
      simp [ih]

/-- Disturbance with probability 1 flips every bit. -/
theorem disturbAux_one (u : Nat → Rat) (hu : ∀ i, 0 ≤ u i) :
    ∀ (i : Nat) (l : List Nat),
      Network.disturbAux 1 u i l = l.map (fun b => if b = 1 then 0 else 1) := by
  intro i l
  induction l generalizing i with
  | nil => rfl
  | cons a t ih =>
      rw [Network.disturbAux, random_choices_01_one (u i) (hu i)]
      simp [ih]

/-- Claim C8: introduce_disturbance(0) leaves the StateVector unchanged and
introduce_disturbance(1) replaces it with its bitwise complement; both keep
the vector's length. -/
theorem C8_disturbance_endpoints (net : Network) (u : Nat → Rat)
    (hu : ∀ i, 0 ≤ u i ∧ u i < 1) :
    (net.introduce_disturbance 0 u).node_states = net.node_states ∧
    (net.introduce_disturbance 1 u).node_states =
      net.node_states.map (fun b => if b = 1 then 0 else 1) ∧
    (net.introduce_disturbance 0 u).node_states.length = net.node_states.length ∧
    (net.introduce_disturbance 1 u).node_states.length = net.node_states.length := by
  have h0 : (net.introduce_disturbance 0 u).node_states = net.node_states :=
    disturbAux_zero u (fun i => (hu i).2) 0 net.node_states
  have h1 : (net.introduce_disturbance 1 u).node_states =
      net.node_states.map (fun b => if b = 1 then 0 else 1) :=
    disturbAux_one u (fun i => (hu i).1) 0 net.node_states
  exact ⟨h0, h1, by rw [h0], by rw [h1]; simp⟩

/-- Witness for C8 on the concrete 2-node network in states [0, 1] with the
all-zero draw oracle. -/
theorem C8_witness :
    ((0:Rat) ≤ 0 ∧ (0:Rat) < 1) ∧
    ((swapNet 0 1).introduce_disturbance 0 (fun _ => 0)).node_states = [0, 1] ∧
    ((swapNet 0 1).introduce_disturbance 1 (fun _ => 0)).node_states = [1, 0] := by
  have h := C8_disturbance_endpoints (swapNet 0 1) (fun _ => 0)
    (fun i => ⟨le_refl 0, by norm_num⟩)
  exact ⟨⟨le_refl 0, by norm_num⟩, h.1, by rw [h.2.1]; rfl⟩

/-- With a nonpositive requested edge count the `while` loop exits at once,
returning the untouched all-empty adjacency, whatever the fuel. -/
theorem edge_algorithm_uniform_of_nonpos (num_nodes num_edges : Int)
    (hE : num_edges ≤ 0) (u : Nat → Nat) (fuel : Nat) :
    edge_algorithm_uniform num_nodes num_edges u fuel =
      .ok (List.replicate num_nodes.toNat []) := by
  have hc : ¬ ((([] : List (Nat × Nat)).length : Int) < num_edges) := by
    simp only [List.length_nil, Nat.cast_zero, not_lt]
    omega
  cases fuel with
  | zero => rw [edge_algorithm_uniform, edgeLoop, if_neg hc]
  | succ n => rw [edge_algorithm_uniform, edgeLoop, if_neg hc]

/-- Claim C3 (amended): `Network.__init__` validates nothing. Whenever the
requested edge count is nonpositive — in particular for num_nodes <= 0,
num_edges < 0 or probabilities outside [0, 1] — construction succeeds and
returns a Network; no InvalidParameter failure exists in the code. -/
theorem C3_construction_never_validates (num_nodes num_edges : Int)
    (hE : num_edges ≤ 0) (fuel : Nat) (uEdge : Nat → Nat)
    (node_rule_activation_probability initial_state_probability : Rat)
    (uRule : Nat → Nat → Rat) (uInit : Nat → Rat) :
    (Network.construct num_nodes num_edges fuel uEdge
        node_rule_activation_probability initial_state_probability
        uRule uInit).isSome := by
  rw [Network.construct, edge_algorithm_uniform_of_nonpos num_nodes num_edges hE]
  rfl

/-- Counterexample for C3 as stated: with num_nodes = 0 (and also with both
probabilities outside [0, 1]) construction does not fail — it produces a
Network, here one with state vector [1, 1]. -/
theorem C3_counterexample :
    (Network.construct 0 0 1 (fun _ => 0) (1/2) (1/2) (fun _ _ => 0)
        (fun _ => 0)).isSome = true ∧
    (Network.construct 2 0 1 (fun _ => 0) (3/2) 2 (fun _ _ => 0)
        (fun _ => 0)).map Network.node_states = some [1, 1] := by
  refine ⟨rfl, ?_⟩
  have h2 : random_choices_01 2 0 = 1 := by
    unfold random_choices_01
    rw [if_neg]
    norm_num
  rw [Network.construct, edge_algorithm_uniform_of_nonpos 2 0 (le_refl 0)]
  show some ((List.range (2:Int).toNat).map
      (fun i => random_choices_01 2 ((fun _ : Nat => (0:Rat)) i))) = some [1, 1]
  simp [h2, List.range_succ]

/-- Witness for C3: bad parameters (negative node and edge counts,
probabilities 3/2 and 2) still construct a Network. -/
theorem C3_witness :
    ((-1 : Int) ≤ 0) ∧
    (Network.construct (-3) (-1) 0 (fun _ => 0) (3/2) 2 (fun _ _ => 0)
        (fun _ => 0)).isSome :=
  ⟨by decide,
    C3_construction_never_validates (-3) (-1) (by decide) 0 (fun _ => 0) (3/2) 2
      (fun _ _ => 0) (fun _ => 0)⟩

/-- Every list produced by the cleanup pass is nonempty: an empty dependency
list is replaced by the singleton of its own node key. -/
theorem cleanupAux_ne_nil (adj : List (List Nat)) :
    ∀ (k : Nat), ∀ l ∈ Network.cleanupAux k adj, l ≠ [] := by
  induction adj with
  | nil => intro k l hl; cases hl
  | cons a t ih =>
      intro k l hl
      rw [Network.cleanupAux] at hl
      rcases List.mem_cons.mp hl with h | h
      · subst h
        by_cases ha : a = [] <;> simp [ha]
      · exact ih (k + 1) l h

/-- Cleaning an all-empty adjacency makes every node self-dependent. -/
theorem cleanupAux_replicate_nil :
    ∀ (n k : Nat), Network.cleanupAux k (List.replicate n []) =
      (List.range' k n).map (fun i => [i]) := by
  intro n
  induction n with
  | zero => intro k; rfl
  | succ n ih =>
      intro k
      rw [List.replicate_succ, Network.cleanupAux, ih (k + 1), List.range'_succ]
      rfl

/-- Claim C5: after cleanup every node's dependency list is nonempty; with
E = 0 the edge generator returns the all-empty adjacency and cleanup turns
it into [0] = [itself] for every node; the dependency lists are never
touched again by transition, disturbance or re-initialisation, so every
node's rule arity stays >= 1. -/
theorem C5_cleanup_self_dependence (N : Int) (hN : 0 < N) :
    (∀ (adjacency_list : List (List Nat)),
        ∀ l ∈ Network._cleanup_adjacency adjacency_list, l ≠ []) ∧
    (∀ (u : Nat → Nat) (fuel : Nat),
        edge_algorithm_uniform N 0 u fuel = .ok (List.replicate N.toNat [])) ∧
    Network._cleanup_adjacency (List.replicate N.toNat []) =
      (List.range N.toNat).map (fun i => [i]) ∧
    (∀ (net net' : Network), net.transition_state = some net' →
        net'.node_dependency_lists = net.node_dependency_lists) ∧
    (∀ (net : Network) (q : Rat) (u : Nat → Rat),
        (net.introduce_disturbance q u).node_dependency_lists =
          net.node_dependency_lists) ∧
    (∀ (net : Network) (p : Rat) (u : Nat → Rat),
        (net.initialize_state p u).node_dependency_lists =
          net.node_dependency_lists) := by
  refine ⟨fun adj => cleanupAux_ne_nil adj 0,
    fun u fuel => edge_algorithm_uniform_of_nonpos N 0 (le_refl 0) u fuel,
    ?_, ?_, fun net q u => rfl, fun net p u => rfl⟩
  · rw [Network._cleanup_adjacency, cleanupAux_replicate_nil, List.range_eq_range']
  · intro net net' h
    rw [Network.transition_state] at h
    cases haux : Network.transitionAux net.node_transition_rules net.node_states 0
        net.node_dependency_lists with
    | none => rw [haux] at h; cases h
    | some ns =>
        rw [haux] at h
        have h' : some ({net with node_states := ns} : Network) = some net' := h
        rw [← Option.some.inj h']

/-- Witness for C5 at N = 2. -/
theorem C5_witness :
    (0:Int) < 2 ∧
    Network._cleanup_adjacency (List.replicate (2:Int).toNat []) =
      (List.range (2:Int).toNat).map (fun i => [i]) :=
  ⟨by decide, (C5_cleanup_self_dependence 2 (by decide)).2.2.1⟩

/-- Claim C1: transition_state computes each node's next bit solely from the
pre-step StateVector (dependency states in fixed order, encoded to a truth
key, looked up in that node's RuleTable), staging all results and publishing
them together, so it is a deterministic function of the current StateVector
given fixed topology and rules; the 2-node copy-rule network swaps its two
states in one synchronous step instead of converging. -/
theorem C1_synchronous_swap :
    (∀ n₁ n₂ : Network,
        n₁.node_dependency_lists = n₂.node_dependency_lists →
        n₁.node_transition_rules = n₂.node_transition_rules →
        n₁.node_states = n₂.node_states →
        (n₁.transition_state).map Network.node_states =
          (n₂.transition_state).map Network.node_states) ∧
    (∀ a b : Nat, (a = 0 ∨ a = 1) → (b = 0 ∨ b = 1) →
        (swapNet a b).transition_state = some (swapNet b a)) := by
  constructor
  · intro n₁ n₂ h1 h2 h3
    rw [Network.transition_state, Network.transition_state, h1, h2, h3]
    cases Network.transitionAux n₂.node_transition_rules n₂.node_states 0
        n₂.node_dependency_lists <;> rfl
  · intro a b ha hb
    rcases ha with rfl | rfl <;> rcases hb with rfl | rfl <;> decide

/-- Witness for C1: the concrete swap instance at states [0, 1]. -/
theorem C1_witness :
    ((0:Nat) = 0 ∨ (0:Nat) = 1) ∧ ((1:Nat) = 0 ∨ (1:Nat) = 1) ∧
    (swapNet 0 1).transition_state = some (swapNet 1 0) :=
  ⟨Or.inl rfl, Or.inr rfl, C1_synchronous_swap.2 0 1 (Or.inl rfl) (Or.inr rfl)⟩

/-- On a list of bits, the truth key is the string of the corresponding
characters, one per bit. -/
theorem create_truth_key_data :
    ∀ (l : List Nat), (∀ x ∈ l, x = 0 ∨ x = 1) →
      (Network._create_truth_key l).data =
        l.map (fun x => if x = 0 then '0' else '1') := by
  intro l
  induction l with
  | nil => intro _; rfl
  | cons a t ih =>
      intro hl
      have ha := hl a (List.mem_cons_self a t)
      have ht := ih (fun x hx => hl x (List.mem_cons_of_mem a hx))
      rw [Network._create_truth_key, String.join_eq] at ht ⊢
      simp only [List.map_cons, List.flatten_cons] at ht ⊢
      rw [← ht]
      rcases ha with h | h <;> subst h <;> rfl

/-- The per-bit character map is injective on bit lists. -/
theorem bit_char_map_inj :
    ∀ (l₁ l₂ : List Nat), (∀ x ∈ l₁, x = 0 ∨ x = 1) → (∀ x ∈ l₂, x = 0 ∨ x = 1) →
      l₁.map (fun x => if x = 0 then '0' else '1') =
        l₂.map (fun x => if x = 0 then '0' else '1') → l₁ = l₂ := by
  intro l₁
  induction l₁ with
  | nil =>
      intro l₂ _ _ h
      cases l₂ with
      | nil => rfl
      | cons b s => cases h
  | cons a t ih =>
      intro l₂ h₁ h₂ h
      cases l₂ with
      | nil => cases h
      | cons b s =>
          simp only [List.map_cons, List.cons.injEq] at h
          have hab : a = b := by
            rcases h₁ a (List.mem_cons_self a t) with ha | ha <;>
              rcases h₂ b (List.mem_cons_self b s) with hb | hb <;>
                subst ha <;> subst hb <;> first | rfl | (exfalso; exact absurd h.1 (by decide))
          rw [hab, ih s (fun x hx => h₁ x (List.mem_cons_of_mem a hx))
            (fun x hx => h₂ x (List.mem_cons_of_mem b hx)) h.2]

/-- The truth-key codec is injective on bit lists (no two distinct
dependency-state sequences share a key). -/
theorem create_truth_key_inj_on (l₁ l₂ : List Nat)
    (h₁ : ∀ x ∈ l₁, x = 0 ∨ x = 1) (h₂ : ∀ x ∈ l₂, x = 0 ∨ x = 1)
    (hkey : Network._create_truth_key l₁ = Network._create_truth_key l₂) :
    l₁ = l₂ := by
  apply bit_char_map_inj l₁ l₂ h₁ h₂
  rw [← create_truth_key_data l₁ h₁, ← create_truth_key_data l₂ h₂, hkey]

/-- The input enumerator yields 2^k sequences. -/
theorem generate_base_truth_inputs_length (k : Nat) :
    (Network._generate_base_truth_inputs k).length = 2 ^ k := by
  induction k with
  | zero => rfl
  | succ n ih =>
      rw [Network._generate_base_truth_inputs]
      simp only [List.length_append, List.length_map, ih]
      ring

/-- Every enumerated sequence has length k and consists of bits. -/
theorem mem_generate_base_truth_inputs (k : Nat) :
    ∀ l ∈ Network._generate_base_truth_inputs k,
      l.length = k ∧ ∀ x ∈ l, x = 0 ∨ x = 1 := by
  induction k with
  | zero =>
      intro l hl
      rw [Network._generate_base_truth_inputs] at hl
      rcases List.mem_singleton.mp hl with rfl
      exact ⟨rfl, by intro x hx; cases hx⟩
  | succ n ih =>
      intro l hl
      rw [Network._generate_base_truth_inputs] at hl
      rcases List.mem_append.mp hl with h | h <;>
        obtain ⟨rest, hrest, rfl⟩ := List.mem_map.mp h <;>
          obtain ⟨hlen, hbits⟩ := ih rest hrest
      · refine ⟨by simp [hlen], ?_⟩
        intro x hx
        rcases List.mem_cons.mp hx with rfl | hx
        · exact Or.inl rfl
        · exact hbits x hx
      · refine ⟨by simp [hlen], ?_⟩
        intro x hx
        rcases List.mem_cons.mp hx with rfl | hx
        · exact Or.inr rfl
        · exact hbits x hx

/-- The input enumerator is complete: every length-k bit sequence occurs. -/
theorem generate_base_truth_inputs_complete :
    ∀ (k : Nat) (l : List Nat), l.length = k → (∀ x ∈ l, x = 0 ∨ x = 1) →
      l ∈ Network._generate_base_truth_inputs k := by
  intro k
  induction k with
  | zero =>
      intro l hlen _
      rw [List.length_eq_zero] at hlen
      subst hlen
      rw [Network._generate_base_truth_inputs]
      exact List.mem_singleton.mpr rfl
  | succ n ih =>
      intro l hlen hbits
      cases l with
      | nil => cases hlen
      | cons a t =>
          have ht : t ∈ Network._generate_base_truth_inputs n :=
            ih t (by simpa using hlen) (fun x hx => hbits x (List.mem_cons_of_mem a hx))
          rw [Network._generate_base_truth_inputs]
          rcases hbits a (List.mem_cons_self a t) with rfl | rfl
          · exact List.mem_append.mpr (Or.inl (List.mem_map.mpr ⟨t, ht, rfl⟩))
          · exact List.mem_append.mpr (Or.inr (List.mem_map.mpr ⟨t, ht, rfl⟩))

/-- The input enumerator never repeats a sequence. -/
theorem generate_base_truth_inputs_nodup (k : Nat) :
    (Network._generate_base_truth_inputs k).Nodup := by
  induction k with
  | zero => exact List.nodup_singleton _
  | succ n ih =>
      rw [Network._generate_base_truth_inputs]
      refine List.Nodup.append ?_ ?_ ?_
      · exact ih.map_on (fun x _ y _ h => by injection h)
      · exact ih.map_on (fun x _ y _ h => by injection h)
      · intro l hl₀ hl₁
        obtain ⟨r₀, _, rfl⟩ := List.mem_map.mp hl₀
        obtain ⟨r₁, _, h⟩ := List.mem_map.mp hl₁
        cases h

/-- The input enumerator is lexicographically sorted. -/
theorem generate_base_truth_inputs_sorted (k : Nat) :
    List.Sorted (List.Lex (· < ·)) (Network._generate_base_truth_inputs k) := by
  induction k with
  | zero => exact List.sorted_singleton _
  | succ n ih =>
      rw [Network._generate_base_truth_inputs, List.Sorted, List.pairwise_append]
      refine ⟨?_, ?_, ?_⟩
      · rw [List.pairwise_map]
        exact ih.imp (fun h => List.Lex.cons h)
      · rw [List.pairwise_map]
        exact ih.imp (fun h => List.Lex.cons h)
      · intro l₀ hl₀ l₁ hl₁
        obtain ⟨r₀, _, rfl⟩ := List.mem_map.mp hl₀
        obtain ⟨r₁, _, rfl⟩ := List.mem_map.mp hl₁
        exact List.Lex.rel (by decide)

/-- The keys of a synthesized mapping are exactly the supplied truth keys,
in order. -/
theorem assign_truth_mapping_keys (truth_keys : List String) (p : Rat) (u : Nat → Rat) :
    (Network._assign_truth_mapping truth_keys p u).map Prod.fst = truth_keys := by
  rw [Network._assign_truth_mapping, List.map_map]
  have : (Prod.fst ∘ fun q : Nat × String => (q.2, random_choices_01 p (u q.1))) =
      Prod.snd := by
    funext q
    rfl
  rw [this, List.enum_map_snd]

/-- Every output of a synthesized mapping is a single bit. -/
theorem assign_truth_mapping_outputs (truth_keys : List String) (p : Rat)
    (u : Nat → Rat) :
    ∀ pr ∈ Network._assign_truth_mapping truth_keys p u, pr.2 = 0 ∨ pr.2 = 1 := by
  intro pr hpr
  rw [Network._assign_truth_mapping] at hpr
  obtain ⟨q, _, rfl⟩ := List.mem_map.mp hpr
  unfold random_choices_01
  by_cases h : u q.1 < 1 - p <;> simp [h]

/-- `_generate_rules` produces one table per node. -/
theorem generate_rules_length (deps : List (List Nat)) (p : Rat) (u : Nat → Nat → Rat) :
    (Network._generate_rules deps p u).length = deps.length := by
  rw [Network._generate_rules, List.length_map, List.enum_length]

/-- The table of node i is synthesized over the enumerated inputs of that
node's arity. -/
theorem generate_rules_getD (deps : List (List Nat)) (p : Rat) (u : Nat → Nat → Rat)
    (i : Nat) (hi : i < deps.length) :
    (Network._generate_rules deps p u).getD i [] =
      Network._assign_truth_mapping
        ((Network._generate_base_truth_inputs (deps.getD i []).length).map
          Network._create_truth_key) p (u i) := by
  rw [Network._generate_rules]
  rw [List.getD_eq_getElem _ _ (by rw [List.length_map, List.enum_length]; exact hi)]
  rw [List.getElem_map, List.getElem_enum]
  rw [List.getD_eq_getElem _ _ hi]

/-- Claim C6: for every node of arity k >= 1 the synthesized RuleTable is
total over its input space: its key sequence is exactly the encodings of all
2^k length-k bit sequences produced by the input enumerator (which yields
them without duplicates, in lexicographic order), the keys are pairwise
distinct (each key maps to a single output bit), and every output is a bit;
the tables are built once at construction and no later operation
(transition, disturbance, re-initialisation) regenerates them. -/
theorem C6_rule_table_total (node_dependency_lists : List (List Nat)) (p : Rat)
    (u : Nat → Nat → Rat) (i k : Nat) (hi : i < node_dependency_lists.length)
    (hk : k = (node_dependency_lists.getD i []).length) (hk1 : 1 ≤ k) :
    (Network._generate_rules node_dependency_lists p u).length =
      node_dependency_lists.length ∧
    ((Network._generate_rules node_dependency_lists p u).getD i []).map Prod.fst =
      (Network._generate_base_truth_inputs k).map Network._create_truth_key ∧
    (Network._generate_base_truth_inputs k).length = 2 ^ k ∧
    (Network._generate_base_truth_inputs k).Nodup ∧
    (∀ l ∈ Network._generate_base_truth_inputs k,
        l.length = k ∧ ∀ x ∈ l, x = 0 ∨ x = 1) ∧
    (∀ l : List Nat, l.length = k → (∀ x ∈ l, x = 0 ∨ x = 1) →
        l ∈ Network._generate_base_truth_inputs k) ∧
    List.Sorted (List.Lex (· < ·)) (Network._generate_base_truth_inputs k) ∧
    (((Network._generate_rules node_dependency_lists p u).getD i []).map
        Prod.fst).Nodup ∧
    (∀ pr ∈ (Network._generate_rules node_dependency_lists p u).getD i [],
        pr.2 = 0 ∨ pr.2 = 1) ∧
    (∀ (net net' : Network), net.transition_state = some net' →
        net'.node_transition_rules = net.node_transition_rules) ∧
    (∀ (net : Network) (q : Rat) (w : Nat → Rat),
        (net.introduce_disturbance q w).node_transition_rules =
          net.node_transition_rules) ∧
    (∀ (net : Network) (q : Rat) (w : Nat → Rat),
        (net.initialize_state q w).node_transition_rules =
          net.node_transition_rules) := by
  subst hk
  have hkeys : ((Network._generate_rules node_dependency_lists p u).getD i []).map
      Prod.fst =
      (Network._generate_base_truth_inputs
          (node_dependency_lists.getD i []).length).map Network._create_truth_key := by
    rw [generate_rules_getD node_dependency_lists p u i hi, assign_truth_mapping_keys]
  refine ⟨generate_rules_length node_dependency_lists p u, hkeys,
    generate_base_truth_inputs_length _,
    generate_base_truth_inputs_nodup _,
    mem_generate_base_truth_inputs _,
    generate_base_truth_inputs_complete _,
    generate_base_truth_inputs_sorted _, ?_, ?_, ?_,
    fun net q w => rfl, fun net q w => rfl⟩
  · rw [hkeys]
    refine (generate_base_truth_inputs_nodup _).map_on ?_
    intro l₁ hl₁ l₂ hl₂ hkey
    obtain ⟨_, hb₁⟩ := mem_generate_base_truth_inputs _ l₁ hl₁
    obtain ⟨_, hb₂⟩ := mem_generate_base_truth_inputs _ l₂ hl₂
    exact create_truth_key_inj_on l₁ l₂ hb₁ hb₂ hkey
  · rw [generate_rules_getD node_dependency_lists p u i hi]
    exact assign_truth_mapping_outputs _ p (u i)
  · intro net net' h
    rw [Network.transition_state] at h
    cases haux : Network.transitionAux net.node_transition_rules net.node_states 0
        net.node_dependency_lists with
    | none => rw [haux] at h; cases h
    | some ns =>
        rw [haux] at h
        have h' : some ({net with node_states := ns} : Network) = some net' := h
        rw [← Option.some.inj h']

/-- Witness for C6 on a single node depending on one node (arity 1). -/
theorem C6_witness :
    0 < ([[0]] : List (List Nat)).length ∧ (1:Nat) = ([[0]].getD 0 []).length ∧
    ((Network._generate_rules [[0]] (1/2) (fun _ _ => 0)).getD 0 []).map Prod.fst =
      (Network._generate_base_truth_inputs 1).map Network._create_truth_key :=
  ⟨by decide, by decide,
    (C6_rule_table_total [[0]] (1/2) (fun _ _ => 0) 0 1 (by decide) (by decide)
      (by decide)).2.1⟩

/-- Reading dependency states succeeds and yields bits when every index is
in range of a bit-valued state vector. -/
theorem get_dependency_node_states_total (node_states : List Nat) :
    ∀ (deps : List Nat), (∀ n ∈ deps, n < node_states.length) →
      ∃ ds, Network._get_dependency_node_states node_states deps = some ds ∧
        ds.length = deps.length ∧ ∀ x ∈ ds, x ∈ node_states := by
  intro deps
  induction deps with
  | nil => intro _; exact ⟨[], rfl, rfl, by intro x hx; cases hx⟩
  | cons n rest ih =>
      intro hin
      have hn : n < node_states.length := hin n (List.mem_cons_self n rest)
      obtain ⟨ds, hds, hlen, hmem⟩ := ih (fun m hm => hin m (List.mem_cons_of_mem n hm))
      refine ⟨node_states.get ⟨n, hn⟩ :: ds, ?_, by simp [hlen], ?_⟩
      · rw [Network._get_dependency_node_states, List.get?_eq_get hn, hds]
        rfl
      · intro x hx
        rcases List.mem_cons.mp hx with rfl | hx
        · exact List.get_mem node_states n hn
        · exact hmem x hx

/-- Association-list lookup succeeds whenever the key occurs among the
stored keys. -/
theorem lookup_isSome_of_mem_keys (key : String) :
    ∀ (m : RuleTable), key ∈ m.map Prod.fst → (List.lookup key m).isSome := by
  intro m
  induction m with
  | nil => intro h; cases h
  | cons a t ih =>
      intro h
      rw [List.lookup]
      by_cases hk : key = a.1
      · rw [show (key == a.1) = true from beq_iff_eq.mpr hk]
        rfl
      · rw [show (key == a.1) = false from beq_eq_false_iff_ne.mpr hk]
        apply ih
        rw [List.map_cons] at h
        rcases List.mem_cons.mp h with h' | h'
        · exact absurd h' hk
        · exact h'

/-- The staging loop of `transition_state` succeeds on every suffix of the
dependency lists when, for each node, the rule table at its key offset is
total over the enumerated inputs of its arity and all its dependency
indices are in range of the bit state vector. -/
theorem transitionAux_isSome (rules : List RuleTable) (states : List Nat)
    (hbits : ∀ s ∈ states, s = 0 ∨ s = 1) :
    ∀ (deps : List (List Nat)) (off : Nat),
      (∀ j (hj : j < deps.length), ∃ rule,
          rules.get? (off + j) = some rule ∧
          rule.map Prod.fst =
            (Network._generate_base_truth_inputs
              (deps.get ⟨j, hj⟩).length).map Network._create_truth_key) →
      (∀ l ∈ deps, ∀ n ∈ l, n < states.length) →
      (Network.transitionAux rules states off deps).isSome := by
  intro deps
  induction deps with
  | nil => intro off _ _; rfl
  | cons adjacent rest ih =>
      intro off hrules hin
      obtain ⟨rule, hr, hrk⟩ := hrules 0 (by simp)
      obtain ⟨ds, hds, hlen, hmem⟩ :=
        get_dependency_node_states_total states adjacent
          (hin adjacent (List.mem_cons_self adjacent rest))
      have hkey : Network._create_truth_key ds ∈ rule.map Prod.fst := by
        rw [hrk]
        refine List.mem_map.mpr ⟨ds, ?_, rfl⟩
        exact generate_base_truth_inputs_complete _ ds (by simpa using hlen)
          (fun x hx => hbits x (hmem x hx))
      obtain ⟨out, hout⟩ := Option.isSome_iff_exists.mp
        (lookup_isSome_of_mem_keys (Network._create_truth_key ds) rule hkey)
      have htail : (Network.transitionAux rules states (off + 1) rest).isSome := by
        refine ih (off + 1) ?_ (fun l hl => hin l (List.mem_cons_of_mem adjacent hl))
        intro j hj
        obtain ⟨rule', hr', hrk'⟩ := hrules (j + 1) (by simpa using hj)
        exact ⟨rule', by rw [show off + 1 + j = off + (j + 1) by omega]; exact hr',
          by simpa using hrk'⟩
      obtain ⟨tail, htl⟩ := Option.isSome_iff_exists.mp htail
      rw [Nat.add_zero] at hr
      have hunfold : Network.transitionAux rules states off (adjacent :: rest) =
          (rules.get? off).bind (fun r =>
            (Network._get_dependency_node_states states adjacent).bind (fun ds2 =>
              (List.lookup (Network._create_truth_key ds2) r).bind (fun nb =>
                (Network.transitionAux rules states (off + 1) rest).bind (fun tl =>
                  some (nb :: tl))))) := rfl
      rw [hunfold]
      simp only [hr, hds, hout, htl, Option.some_bind]
      rfl

/-- Claim C7: for a Network satisfying the construction invariants (state
vector of bits sized to the node count, dependency indices in range, one
total rule table per node), transition_state never fails: every dependency
index access is in range and every computed truth key is present in its
node's RuleTable, so the internal-consistency error branch is unreachable. -/
theorem C7_transition_never_fails (net : Network)
    (hlen : net.node_states.length = net.num_nodes.toNat)
    (hbits : ∀ s ∈ net.node_states, s = 0 ∨ s = 1)
    (hdeps : ∀ l ∈ net.node_dependency_lists,
        l ≠ [] ∧ ∀ n ∈ l, n < net.num_nodes.toNat)
    (hrules : ∀ j (hj : j < net.node_dependency_lists.length), ∃ rule,
        net.node_transition_rules.get? j = some rule ∧
        rule.map Prod.fst =
          (Network._generate_base_truth_inputs
            (net.node_dependency_lists.get ⟨j, hj⟩).length).map
              Network._create_truth_key) :
    (net.transition_state).isSome := by
  rw [Network.transition_state]
  have haux := transitionAux_isSome net.node_transition_rules net.node_states hbits
    net.node_dependency_lists 0
    (fun j hj => by simpa using hrules j hj)
    (fun l hl n hn => by rw [hlen]; exact (hdeps l hl).2 n hn)
  obtain ⟨ns, hns⟩ := Option.isSome_iff_exists.mp haux
  rw [hns]
  rfl

/-- Witness for C7 on the 2-node copy-rule network in states [0, 1]. -/
theorem C7_witness :
    (swapNet 0 1).node_states.length = (swapNet 0 1).num_nodes.toNat ∧
    ((swapNet 0 1).transition_state).isSome := by
  refine ⟨by decide, ?_⟩
  refine C7_transition_never_fails (swapNet 0 1) (by decide) (by decide) (by decide) ?_
  intro j hj
  have hj2 : j < 2 := hj
  interval_cases j
  · refine ⟨copyRule, rfl, ?_⟩
    show List.map Prod.fst copyRule =
      (Network._generate_base_truth_inputs 1).map Network._create_truth_key
    decide
  · refine ⟨copyRule, rfl, ?_⟩
    show List.map Prod.fst copyRule =
      (Network._generate_base_truth_inputs 1).map Network._create_truth_key
    decide

/-- `getD` after overwriting the same position. -/
theorem getD_set_self (v : List Nat) :
    ∀ (l : List (List Nat)) (i : Nat), i < l.length → (l.set i v).getD i [] = v := by
  intro l
  induction l with
  | nil => intro i h; cases h
  | cons a t ih =>
      intro i h
      cases i with
      | zero => rfl
      | succ m => exact ih m (by simpa using h)

/-- `getD` after overwriting a different position. -/
theorem getD_set_ne (v : List Nat) :
    ∀ (l : List (List Nat)) (i j : Nat), j ≠ i →
      (l.set i v).getD j [] = l.getD j [] := by
  intro l
  induction l with
  | nil => intro i j _; rfl
  | cons a t ih =>
      intro i j hne
      cases i with
      | zero =>
          cases j with
          | zero => exact absurd rfl hne
          | succ m => rfl
      | succ m =>
          cases j with
          | zero => rfl
          | succ k => exact ih m k (fun hh => hne (by rw [hh]))

/-- Every position of the all-empty adjacency reads as the empty list. -/
theorem getD_replicate_nil :
    ∀ (n i : Nat), (List.replicate n ([] : List Nat)).getD i [] = [] := by
  intro n
  induction n with
  | zero => intro i; rfl
  | succ m ih =>
      intro i
      cases i with
      | zero => rfl
      | succ k => exact ih k

/-- Appending one entry to one node's dependency list grows the total edge
count by exactly one. -/
theorem sum_lengths_set_append :
    ∀ (l : List (List Nat)) (i x : Nat), i < l.length →
      ((l.set i ((l.getD i []) ++ [x])).map List.length).sum =
        (l.map List.length).sum + 1 := by
  intro l
  induction l with
  | nil => intro i x h; cases h
  | cons a t ih =>
      intro i x h
      cases i with
      | zero =>
          simp only [List.set, List.map_cons, List.sum_cons]
          have : ((a :: t).getD 0 []) = a := rfl
          rw [this]
          simp only [List.length_append, List.length_singleton]
          omega
      | succ m =>
          have hrec := ih m x (by simpa using h)
          simp only [List.set, List.map_cons, List.sum_cons]
          have : ((a :: t).getD (m + 1) []) = t.getD m [] := rfl
          rw [this, hrec]
          omega

/-- A duplicate-free list of edges inside [0, N) × [0, N) has at most N * N
elements. -/
theorem edges_length_le_sq (N : Nat) (edges : List (Nat × Nat))
    (hnd : edges.Nodup) (hmem : ∀ e ∈ edges, e.1 < N ∧ e.2 < N) :
    edges.length ≤ N * N := by
  classical
  have hsub : edges.toFinset ⊆ Finset.range N ×ˢ Finset.range N := by
    intro e he
    rw [List.mem_toFinset] at he
    rcases hmem e he with ⟨h1, h2⟩
    rw [Finset.mem_product, Finset.mem_range, Finset.mem_range]
    exact ⟨h1, h2⟩
  have hcard := Finset.card_le_card hsub
  rw [List.toFinset_card_of_nodup hnd] at hcard
  simpa [Finset.card_product] using hcard

/-- While the budget exceeds the representable edge count, the loop
condition stays true forever. -/
theorem edges_length_lt_budget (num_nodes num_edges : Int)
    (hN : 0 < num_nodes) (hE : num_nodes ^ 2 < num_edges)
    (edges : List (Nat × Nat)) (hnd : edges.Nodup)
    (hmem : ∀ e ∈ edges, e.1 < num_nodes.toNat ∧ e.2 < num_nodes.toNat) :
    ((edges.length : Int)) < num_edges := by
  have hle := edges_length_le_sq num_nodes.toNat edges hnd hmem
  have h0 : (0:Int) ≤ num_nodes := le_of_lt hN
  have hcast : ((edges.length : Int)) ≤ num_nodes ^ 2 := by
    calc ((edges.length : Int)) ≤ ((num_nodes.toNat * num_nodes.toNat : Nat) : Int) := by
          exact_mod_cast hle
      _ = num_nodes ^ 2 := by
          rw [Nat.cast_mul, Int.toNat_of_nonneg h0]
          ring
  omega

/-- The drawing loop can never exit when the requested edge count exceeds
num_nodes²: every reachable edge set stays strictly below the budget, so
every fuel value is exhausted. -/
theorem edgeLoop_never_returns (num_nodes num_edges : Int) (u : Nat → Nat)
    (hN : 0 < num_nodes) (hE : num_nodes ^ 2 < num_edges) :
    ∀ (fuel pos : Nat) (edges : List (Nat × Nat)) (adj : List (List Nat)),
      edges.Nodup →
      (∀ e ∈ edges, e.1 < num_nodes.toNat ∧ e.2 < num_nodes.toNat) →
      edgeLoop num_nodes num_edges u fuel pos edges adj = .outOfFuel := by
  intro fuel
  induction fuel with
  | zero =>
      intro pos edges adj hnd hmem
      rw [edgeLoop, if_pos (edges_length_lt_budget num_nodes num_edges hN hE edges hnd hmem)]
  | succ n ih =>
      intro pos edges adj hnd hmem
      rw [edgeLoop, if_pos (edges_length_lt_budget num_nodes num_edges hN hE edges hnd hmem),
        if_neg (show ¬ num_nodes ≤ 0 by omega)]
      show (if (u pos % num_nodes.toNat, u (pos + 1) % num_nodes.toNat) ∈ edges then
          edgeLoop num_nodes num_edges u n (pos + 2) edges adj
        else
          edgeLoop num_nodes num_edges u n (pos + 2)
            ((u pos % num_nodes.toNat, u (pos + 1) % num_nodes.toNat) :: edges)
            (adj.set (u (pos + 1) % num_nodes.toNat)
              ((adj.getD (u (pos + 1) % num_nodes.toNat) []) ++
                [u pos % num_nodes.toNat]))) = .outOfFuel
      have hNt : 0 < num_nodes.toNat := by omega
      by_cases hseen : (u pos % num_nodes.toNat, u (pos + 1) % num_nodes.toNat) ∈ edges
      · rw [if_pos hseen]
        exact ih (pos + 2) edges adj hnd hmem
      · rw [if_neg hseen]
        refine ih (pos + 2) _ _ (List.nodup_cons.mpr ⟨hseen, hnd⟩) ?_
        intro e he
        rcases List.mem_cons.mp he with rfl | he
        · exact ⟨Nat.mod_lt _ hNt, Nat.mod_lt _ hNt⟩
        · exact hmem e he

/-- Claim C2 (code bug witness theorem): for every N > 0 and requested edge
count E > N², `edge_algorithm_uniform` never returns, whatever fuel and
whatever random draws — the `while` loop spins forever; no EdgeBudgetExceeded
detection exists in the code. -/
theorem C2_edge_budget_never_detected (num_nodes num_edges : Int)
    (hN : 0 < num_nodes) (hE : num_nodes ^ 2 < num_edges)
    (u : Nat → Nat) (fuel : Nat) :
    edge_algorithm_uniform num_nodes num_edges u fuel = .outOfFuel :=
  edgeLoop_never_returns num_nodes num_edges u hN hE fuel 0 []
    (List.replicate num_nodes.toNat []) List.nodup_nil
    (fun e he => absurd he (List.not_mem_nil e))

/-- Witness for C2 at N = 1, E = 2: the loop is still spinning after fuel 3
(and, by the theorem, after any fuel). -/
theorem C2_witness :
    ((0:Int) < 1 ∧ (1:Int) ^ 2 < 2) ∧
    edge_algorithm_uniform 1 2 (fun _ => 0) 3 = .outOfFuel :=
  ⟨⟨by decide, by decide⟩,
    C2_edge_budget_never_detected 1 2 (by decide) (by decide) (fun _ => 0) 3⟩

/-- What holds on normal loop exit: the edge count has reached the budget
exactly, and the per-node lists are duplicate-free. -/
theorem edgeLoop_exit_spec (num_nodes num_edges : Int)
    (edges : List (Nat × Nat)) (adj : List (List Nat))
    (hlen : adj.length = num_nodes.toNat)
    (hsum : (adj.map List.length).sum = edges.length)
    (hle : ((edges.length : Int)) ≤ num_edges)
    (hnd : ∀ t, (adj.getD t []).Nodup)
    (hcond : ¬ ((edges.length : Int)) < num_edges) :
    adj.length = num_nodes.toNat ∧
      (((adj.map List.length).sum : Int)) = num_edges ∧
      ∀ l ∈ adj, l.Nodup := by
  refine ⟨hlen, ?_, ?_⟩
  · rw [hsum]
    omega
  · intro l hl
    obtain ⟨n, rfl⟩ := List.mem_iff_get.mp hl
    have h := hnd n
    rw [List.getD_eq_getElem _ _ n.isLt] at h
    simpa using h

/-- Loop invariant for `edgeLoop`: starting from a consistent state (list
lengths summing to the distinct-edge count, per-node lists duplicate-free
and recorded in the edge set, budget not yet overshot), a normal return
carries exactly num_edges distinct edges spread over duplicate-free
dependency lists. -/
theorem edgeLoop_ok_spec (num_nodes num_edges : Int) (u : Nat → Nat)
    (hN : 0 < num_nodes) :
    ∀ (fuel pos : Nat) (edges : List (Nat × Nat)) (adj out : List (List Nat)),
      adj.length = num_nodes.toNat →
      (adj.map List.length).sum = edges.length →
      ((edges.length : Int)) ≤ num_edges →
      (∀ t, (adj.getD t []).Nodup) →
      (∀ t src, src ∈ adj.getD t [] → (src, t) ∈ edges) →
      edgeLoop num_nodes num_edges u fuel pos edges adj = .ok out →
      out.length = num_nodes.toNat ∧
        (((out.map List.length).sum : Int)) = num_edges ∧
        ∀ l ∈ out, l.Nodup := by
  intro fuel
  induction fuel with
  | zero =>
      intro pos edges adj out hlen hsum hle hnd hrec hok
      rw [edgeLoop] at hok
      by_cases hcond : ((edges.length : Int)) < num_edges
      · rw [if_pos hcond] at hok
        cases hok
      · rw [if_neg hcond] at hok
        injection hok with h
        subst h
        exact edgeLoop_exit_spec num_nodes num_edges edges adj hlen hsum hle hnd hcond
  | succ n ih =>
      intro pos edges adj out hlen hsum hle hnd hrec hok
      rw [edgeLoop] at hok
      by_cases hcond : ((edges.length : Int)) < num_edges
      · rw [if_pos hcond, if_neg (show ¬ num_nodes ≤ 0 by omega)] at hok
        change (if (u pos % num_nodes.toNat, u (pos + 1) % num_nodes.toNat) ∈ edges then
            edgeLoop num_nodes num_edges u n (pos + 2) edges adj
          else
            edgeLoop num_nodes num_edges u n (pos + 2)
              ((u pos % num_nodes.toNat, u (pos + 1) % num_nodes.toNat) :: edges)
              (adj.set (u (pos + 1) % num_nodes.toNat)
                ((adj.getD (u (pos + 1) % num_nodes.toNat) []) ++
                  [u pos % num_nodes.toNat]))) = .ok out at hok
        have hNt : 0 < num_nodes.toNat := by omega
        have hn1 : u (pos + 1) % num_nodes.toNat < adj.length := by
          rw [hlen]
          exact Nat.mod_lt _ hNt
        by_cases hseen : (u pos % num_nodes.toNat, u (pos + 1) % num_nodes.toNat) ∈ edges
        · rw [if_pos hseen] at hok
          exact ih (pos + 2) edges adj out hlen hsum hle hnd hrec hok
        · rw [if_neg hseen] at hok
          refine ih (pos + 2) _ _ out ?_ ?_ ?_ ?_ ?_ hok
          · rw [List.length_set, hlen]
          · rw [sum_lengths_set_append adj _ _ hn1, hsum]
            rfl
          · simp only [List.length_cons]
            push_cast
            omega
          · intro t
            by_cases ht : t = u (pos + 1) % num_nodes.toNat
            · subst ht
              rw [getD_set_self _ adj _ hn1]
              refine (hnd _).append (List.nodup_singleton _) ?_
              intro x hx hx2
              rcases List.mem_singleton.mp hx2 with rfl
              exact hseen (hrec _ _ hx)
            · rw [getD_set_ne _ adj _ t ht]
              exact hnd t
          · intro t src hsrc
            by_cases ht : t = u (pos + 1) % num_nodes.toNat
            · subst ht
              rw [getD_set_self _ adj _ hn1] at hsrc
              rcases List.mem_append.mp hsrc with h | h
              · exact List.mem_cons_of_mem _ (hrec _ src h)
              · rcases List.mem_singleton.mp h with rfl
                exact List.mem_cons_self _ _
            · rw [getD_set_ne _ adj _ t ht] at hsrc
              exact List.mem_cons_of_mem _ (hrec t src hsrc)
      · rw [if_neg hcond] at hok
        injection hok with h
        subst h
        exact edgeLoop_exit_spec num_nodes num_edges edges adj hlen hsum hle hnd hcond

/-- Claim C4: for N > 0 and 0 <= E <= N², whenever `edge_algorithm_uniform`
returns, the adjacency it returns covers all N nodes and records exactly E
distinct directed edges: each node's dependency list is duplicate-free and
the dependency-list lengths sum to E. -/
theorem C4_edge_generator_exact (num_nodes num_edges : Int) (u : Nat → Nat)
    (fuel : Nat) (out : List (List Nat)) (hN : 0 < num_nodes)
    (hE₀ : 0 ≤ num_edges) (hE₁ : num_edges ≤ num_nodes ^ 2)
    (hok : edge_algorithm_uniform num_nodes num_edges u fuel = .ok out) :
    out.length = num_nodes.toNat ∧
    (((out.map List.length).sum : Int)) = num_edges ∧
    ∀ l ∈ out, l.Nodup := by
  refine edgeLoop_ok_spec num_nodes num_edges u hN fuel 0 []
    (List.replicate num_nodes.toNat []) out (List.length_replicate _ _) ?_ ?_ ?_ ?_ hok
  · simp
  · simpa using hE₀
  · intro t
    rw [getD_replicate_nil]
    exact List.nodup_nil
  · intro t src hsrc
    rw [getD_replicate_nil] at hsrc
    cases hsrc

/-- Witness for C4 at N = 1, E = 1: the returned adjacency is [[0]], of
total edge count 1. -/
theorem C4_witness :
    ((0:Int) < 1 ∧ (0:Int) ≤ 1 ∧ (1:Int) ≤ 1 ^ 2 ∧
      edge_algorithm_uniform 1 1 (fun _ => 0) 1 = .ok [[0]]) ∧
    ((([[0]] : List (List Nat)).map List.length).sum : Int) = 1 :=
  ⟨⟨by decide, by decide, by decide, by decide⟩,
    (C4_edge_generator_exact 1 1 (fun _ => 0) 1 [[0]] (by decide) (by decide)
      (by decide) (by decide)).2.1⟩
